import Mathlib

/-!
Verification development for the Article_Finder repository.

The repository normalizes nested bibliographic records
(`src/fetch_wos_data.py`) and classifies the resulting rows with
regex-based include/exclude term matching and two-stage PI-name
attribution (`src/filter_wos_records_category.py`,
`marimo/notebook.py`).

This file shallowly embeds the relevant functions.  Texts are
`List Char` (wrapped in `String` at the interface); the concrete
regular expressions of the source, all of which are alternations of
escaped literals with optional word-boundary lookarounds
`(?<!\w) ... (?!\w)` or the separator class `[\s\-]+`, are embedded
as executable matching functions over character lists.
-/

/-- Python's word character `\w` restricted to ASCII: alphanumeric or
underscore.  Used by the negative lookarounds in the source patterns. -/
def isWordChar (c : Char) : Bool := c.isAlphanum || c == '_'

/-- Characterwise lowercasing of a string (Python `str.lower`),
performed on the character list so that it evaluates by kernel
reduction. -/
def lcStr (s : String) : List Char := s.toList.map Char.toLower

/-- Python `str.strip()` on a character list: drop whitespace from both
ends. -/
def stripChars (l : List Char) : List Char :=
  ((l.dropWhile Char.isWhitespace).reverse.dropWhile Char.isWhitespace).reverse

/-- Python `str.strip()` as a `String` operation. -/
def pyStrip (s : String) : String := String.mk (stripChars s.toList)

/-- Case-insensitive character comparison, as under `re.IGNORECASE`. -/
def eqCI (a b : Char) : Bool := a.toLower == b.toLower

/-- Case-sensitive character comparison (patterns compiled without
`re.IGNORECASE`, such as `SCORE_REGEX`). -/
def eqCS (a b : Char) : Bool := a == b

/-- The characters accepted by the separator class `[\s\-]+` of
`name_to_pattern`: whitespace or a hyphen. -/
def sepChar (c : Char) : Bool := c.isWhitespace || c == '-'

/-- A negative lookaround succeeds at a text edge (`none`) or when the
adjacent character is not a word character. -/
def notWordB : Option Char → Bool
  | none => true
  | some c => !isWordChar c

/-- `prefixBy eqb t u`: the literal `t` matches at the start of `u`,
comparing characters with `eqb`. -/
def prefixBy (eqb : Char → Char → Bool) : List Char → List Char → Bool
  | [], _ => true
  | _ :: _, [] => false
  | a :: as, b :: bs => eqb a b && prefixBy eqb as bs

/-- The literal `t` matches the whole of `u` under `eqb`. -/
def matchList (eqb : Char → Char → Bool) (t u : List Char) : Bool :=
  (t.length == u.length) && prefixBy eqb t u

/-- The lookbehind `(?<!\w)` at position `i` of `s`. -/
def prevOk (s : List Char) (i : Nat) : Bool :=
  if i = 0 then true else notWordB s[i - 1]?

/-- One whole-word match attempt of literal `t` at position `i` of `s`:
`(?<!\w)t(?!\w)` anchored at `i`. -/
def wwAt (eqb : Char → Char → Bool) (t s : List Char) (i : Nat) : Bool :=
  prefixBy eqb t (s.drop i) && prevOk s i && notWordB s[i + t.length]?

/-- `re.search` of the whole-word pattern `(?<!\w)t(?!\w)` over `s`. -/
def wwSearch (eqb : Char → Char → Bool) (t s : List Char) : Bool :=
  (List.range (s.length + 1)).any (fun i => wwAt eqb t s i)

/-- `re.search` of the bare literal `t` over `s` (no boundary
anchoring), as in the exclude patterns. -/
def subSearch (eqb : Char → Char → Bool) (t s : List Char) : Bool :=
  (List.range (s.length + 1)).any (fun i => prefixBy eqb t (s.drop i))

/-- Specification-side notion of `t` occurring in `s` as a separate
word: some slice of `s` equals `t` under `eqb` and neither neighbour is
a word character. -/
def wordOccurs (eqb : Char → Char → Bool) (t s : List Char) : Prop :=
  ∃ pre mid post, s = pre ++ mid ++ post ∧ matchList eqb t mid = true ∧
    notWordB pre.getLast? = true ∧ notWordB post.head? = true

/-! ## Term configuration and the compiled include/exclude patterns
(`src/filter_wos_records_category.py` lines 20-69, and the notebook
variant `marimo/notebook.py` lines 44-61). -/

/-- The three term lists read from `keyword.yml`; absent keys default
to empty lists (`kw.get(..., [])`). -/
structure TermConfig where
  include_terms : List String
  exclude_terms : List String
  exclude_terms_category : List String

/-- `normal_terms = [t for t in include_terms if t.lower() != "score" and t != "SCoRe"]`. -/
def normalTerms (include_terms : List String) : List String :=
  include_terms.filter (fun t => !(lcStr t == "score".toList || t == "SCoRe"))

/-- `SCORE_REGEX = re.compile(r"(?<!\w)SCoRe(?!\w)")` (case-sensitive),
applied with `.search`.  In the script this pattern is compiled
unconditionally. -/
def scoreMatch (text : String) : Bool :=
  wwSearch eqCS "SCoRe".toList text.toList

/-- `NORMAL_INCLUDE_REGEX.search(text)`: the case-insensitive
whole-word alternation over `normal_terms`; the empty alternation is
compiled as the never-matching `a^`. -/
def normalIncludeSearch (include_terms : List String) (text : String) : Bool :=
  (normalTerms include_terms).any (fun t => wwSearch eqCI t.toList text.toList)

/-- `include_match(text)` of `src/filter_wos_records_category.py`:
`bool(SCORE_REGEX.search(text) or NORMAL_INCLUDE_REGEX.search(text))`,
with `SCORE_REGEX` compiled unconditionally. -/
def include_match (cfg : TermConfig) (text : String) : Bool :=
  scoreMatch text || normalIncludeSearch cfg.include_terms text

/-- `include_match` of `marimo/notebook.py`, where `SCORE_REGEX` is the
never-matching `a^` unless `"SCoRe" in include_terms`. -/
def include_match_nb (cfg : TermConfig) (text : String) : Bool :=
  (if cfg.include_terms.contains "SCoRe" then scoreMatch text else false) ||
    normalIncludeSearch cfg.include_terms text

/-- `extract_include_phrase(text)`: the ambiguous case-sensitive branch
wins; its matched group is always the literal `"SCoRe"`.  Otherwise the
leftmost whole-word match of the normal alternation is returned as the
matched slice of the text (alternatives tried in configuration
order). -/
def extract_include_phrase (cfg : TermConfig) (text : String) : String :=
  if scoreMatch text then "SCoRe"
  else
    let s := text.toList
    let ts := normalTerms cfg.include_terms
    match (List.range (s.length + 1)).find? (fun i => ts.any (fun t => wwAt eqCI t.toList s i)) with
    | some i =>
      match ts.find? (fun t => wwAt eqCI t.toList s i) with
      | some t => String.mk ((s.drop i).take t.toList.length)
      | none => ""
    | none => ""

/-- `EXCLUDE_REGEX` applied to a row's fulltext via `str.contains`:
a case-insensitive substring alternation of escaped literals; the
empty list compiles to the never-matching `a^`. -/
def exclude_match (cfg : TermConfig) (text : String) : Bool :=
  cfg.exclude_terms.any (fun t => subSearch eqCI t.toList text.toList)

/-- `EXCLUDE_CATEGORY_REGEX` applied to a row's category text via
`str.contains`. -/
def exclude_category_match (cfg : TermConfig) (ctext : String) : Bool :=
  cfg.exclude_terms_category.any (fun t => subSearch eqCI t.toList ctext.toList)

/-! ## Deduplication helpers.  The repository has two distinct
`dedupe_keep_order` functions: the one in `src/fetch_wos_data.py`
(lines 50-59) compares items exactly, the one in
`src/filter_wos_records_category.py` (lines 71-83, also in the
notebook) compares lowercased keys. -/

/-- Worker for the filter script's `dedupe_keep_order`: `seen` holds
the lowercased keys already emitted. -/
def dedupeLowerGo (seen : List (List Char)) : List String → List String
  | [] => []
  | x :: xs =>
    let x' := pyStrip x
    if x' = "" then dedupeLowerGo seen xs
    else if seen.contains (lcStr x') then dedupeLowerGo seen xs
    else x' :: dedupeLowerGo (lcStr x' :: seen) xs

/-- `dedupe_keep_order` of `src/filter_wos_records_category.py`:
strips each item, skips empties, and drops an item whose lowercased
form was already seen. -/
def dedupe_keep_order_filter (items : List String) : List String :=
  dedupeLowerGo [] items

/-- Worker for the fetch script's `dedupe_keep_order`: `seen` holds the
exact stripped strings already emitted. -/
def dedupeExactGo (seen : List String) : List String → List String
  | [] => []
  | x :: xs =>
    let x' := pyStrip x
    if x' = "" then dedupeExactGo seen xs
    else if seen.contains x' then dedupeExactGo seen xs
    else x' :: dedupeExactGo (x' :: seen) xs

/-- `dedupe_keep_order` of `src/fetch_wos_data.py`: strips each item,
skips empties and exact (case-sensitive) duplicates. -/
def dedupe_keep_order_fetch (items : List String) : List String :=
  dedupeExactGo [] items

/-! ## PI-name compilation and two-stage attribution
(`src/filter_wos_records_category.py` lines 149-204). -/

/-- Worker for `splitWs`: `cur` accumulates the current word in
reverse. -/
def splitWsGo : List Char → List Char → List (List Char)
  | cur, [] => if cur.isEmpty then [] else [cur.reverse]
  | cur, c :: cs =>
    if c.isWhitespace then
      if cur.isEmpty then splitWsGo [] cs else cur.reverse :: splitWsGo [] cs
    else splitWsGo (c :: cur) cs

/-- `re.split(r"\s+", s)` restricted to stripped input: split into
maximal runs of non-whitespace characters, dropping separators. -/
def splitWs (l : List Char) : List (List Char) := splitWsGo [] l

/-- The whitespace-delimited parts of a controlled name
(`re.split(r"\s+", name.strip())`). -/
def nameParts (name : String) : List (List Char) :=
  splitWs (pyStrip name).toList

/-- `get_lastname(name)`: the final part, or the empty string when the
name has no parts. -/
def lastNameOf (name : String) : List Char :=
  (nameParts name).getLastD []

/-- The last names entering `LASTNAME_REGEX`'s alternation: every
non-empty `get_lastname` result.  (The source also deduplicates and
sorts the alternation longest-first, which does not change whether the
alternation's `search` succeeds.) -/
def piLastnames (names : List String) : List (List Char) :=
  (names.map lastNameOf).filter (fun l => !l.isEmpty)

/-- `LASTNAME_REGEX.search(text)` (used through `str.contains`):
case-insensitive whole-word alternation over the last names; the empty
alternation never matches. -/
def lastnameSearch (names : List String) (text : String) : Bool :=
  (piLastnames names).any (fun ln => wwSearch eqCI ln text.toList)

/-- Matching of one `name_to_pattern` alternative
`(?<!\w)p₁[\s\-]+p₂...[\s\-]+pₙ(?!\w)` against the start of `s`
(the lookbehind is checked by the caller): each part matches
case-insensitively, consecutive parts are separated by a non-empty run
of separator characters, and the trailing lookahead `(?!\w)` holds
after the final part. -/
def matchParts : List (List Char) → List Char → Bool
  | [], s => notWordB s[0]?
  | [p], s => prefixBy eqCI p s && notWordB s[p.length]?
  | p :: q :: ps, s =>
    prefixBy eqCI p s &&
      (List.range (s.drop p.length).length).any (fun j =>
        (((s.drop p.length).take (j + 1)).all sepChar) &&
          matchParts (q :: ps) ((s.drop p.length).drop (j + 1)))

/-- The length of the match produced by one `name_to_pattern`
alternative at the start of `s` under Python's backtracking semantics:
each separator `[\s\-]+` greedily takes the longest run (lengths tried
in descending order) that lets the remainder match. -/
def greedyLen : List (List Char) → List Char → Option Nat
  | [], s => if notWordB s[0]? then some 0 else none
  | [p], s => if prefixBy eqCI p s && notWordB s[p.length]? then some p.length else none
  | p :: q :: ps, s =>
    if prefixBy eqCI p s then
      match ((List.range (s.drop p.length).length).reverse.filterMap (fun j =>
        if ((s.drop p.length).take (j + 1)).all sepChar then
          match greedyLen (q :: ps) ((s.drop p.length).drop (j + 1)) with
          | some m => some ((j + 1) + m)
          | none => none
        else none)).head? with
      | some r => some (p.length + r)
      | none => none
    else none

/-- The first alternative of `PI_REGEX` (in alternation order) that
matches at the current position, returning its match length. -/
def firstGreedy : List (List (List Char)) → List Char → Option Nat
  | [], _ => none
  | ps :: rest, u =>
    match greedyLen ps u with
    | some L => some L
    | none => firstGreedy rest u

/-- `PI_REGEX.findall(text)`: scan left to right; at each position
satisfying the lookbehind try the alternatives in order; on a match
emit the matched slice and continue after it. -/
def findallGo (nps : List (List (List Char))) (s : List Char) : Nat → Nat → List (List Char)
  | _, 0 => []
  | i, fuel + 1 =>
    if i ≤ s.length then
      if prevOk s i then
        match firstGreedy nps (s.drop i) with
        | some L => ((s.drop i).take L) :: findallGo nps s (i + max L 1) fuel
        | none => findallGo nps s (i + 1) fuel
      else findallGo nps s (i + 1) fuel
    else []

/-- `PI_REGEX.findall` over a row's funding search text. -/
def piFindall (names : List String) (text : String) : List String :=
  (findallGo (names.map nameParts) text.toList 0 (text.toList.length + 1)).map
    (fun h => String.mk h)

/-- `find_pi_names_full(text)`: empty for blank text, otherwise the
stripped `findall` hits deduplicated case-insensitively and joined with
`"; "`. -/
def find_pi_names_full (names : List String) (text : String) : String :=
  if pyStrip text = "" then ""
  else String.intercalate "; " (dedupe_keep_order_filter ((piFindall names text).map pyStrip))

/-- The two-stage attribution of column `pi_names_in_funding`: rows
failing the `LASTNAME_REGEX` pre-filter keep the initial `""`; rows
passing it get `find_pi_names_full`. -/
def pi_names_in_funding (names : List String) (text : String) : String :=
  if lastnameSearch names text then find_pi_names_full names text else ""

/-- `pi_in_funding = pi_names_in_funding.str.len() > 0`. -/
def pi_in_funding (names : List String) (text : String) : Bool :=
  decide (0 < (pi_names_in_funding names text).length)

/-- `PI_REGEX.search` semantics (does any alternative match anywhere),
on character lists. -/
def piSearchL (nps : List (List (List Char))) (s : List Char) : Bool :=
  (List.range (s.length + 1)).any (fun i =>
    prevOk s i && nps.any (fun ps => matchParts ps (s.drop i)))

/-- `PI_REGEX.search` over a row's funding search text. -/
def piSearch (names : List String) (text : String) : Bool :=
  piSearchL (names.map nameParts) text.toList

/-- `interleave parts seps` concatenates `p₁ s₁ p₂ s₂ ... pₙ`:
the shape of text matched by a full-name pattern. -/
def interleave : List (List Char) → List (List Char) → List Char
  | [], _ => []
  | [p], _ => p
  | p :: ps, [] => p ++ interleave ps []
  | p :: ps, sp :: ss => p ++ sp ++ interleave (ps) ss

/-! ## The record normalizer's value model (`src/fetch_wos_data.py`).
Raw records are parsed JSON: arbitrarily nested dictionaries, lists and
scalars.  Dictionary fields are kept in insertion order, as Python
dictionaries iterate them. -/

/-- A Python/JSON value. -/
inductive PyVal where
  | null : PyVal
  | bool : Bool → PyVal
  | int : Int → PyVal
  | str : String → PyVal
  | list : List PyVal → PyVal
  | dict : List (String × PyVal) → PyVal

/-- First binding of key `k` (Python dictionaries have unique keys). -/
def alookup : List (String × PyVal) → String → Option PyVal
  | [], _ => none
  | kv :: rest, k => if kv.1 == k then some kv.2 else alookup rest k

theorem sizeOf_alookup {k : String} {w : PyVal} :
    ∀ fs : List (String × PyVal), alookup fs k = some w → sizeOf w < sizeOf fs := by
  intro fs
  induction fs with
  | nil => intro h; simp [alookup] at h
  | cons kv rest ih =>
    intro h
    by_cases hk : kv.1 == k
    · simp only [alookup, if_pos hk, Option.some.injEq] at h
      cases kv with
      | mk a b => simp_all; omega
    · simp only [alookup, if_neg hk] at h
      have := ih h
      simp only [List.cons.sizeOf_spec]
      omega

/-- `d.get(k, dflt)` on a dictionary's field list. -/
def lookupD (fs : List (String × PyVal)) (k : String) (dflt : PyVal) : PyVal :=
  (alookup fs k).getD dflt

/-- Python truthiness of a value. -/
def pyTruthy : PyVal → Bool
  | .null => false
  | .bool b => b
  | .int n => n != 0
  | .str s => s ≠ ""
  | .list xs => !xs.isEmpty
  | .dict fs => !fs.isEmpty

/-- Python `a or b`. -/
def pyOr (a b : PyVal) : PyVal := if pyTruthy a then a else b

/-- Python `v.get(k, dflt)`: succeeds on a dictionary, raises
`AttributeError` on any other receiver. -/
def pyGetD (v : PyVal) (k : String) (dflt : PyVal) : Except String PyVal :=
  match v with
  | .dict fs => .ok (lookupD fs k dflt)
  | _ => .error "AttributeError"

/-- `as_list(x)`: `None` becomes `[]`, a list stays, anything else is
wrapped in a singleton. -/
def as_list : PyVal → List PyVal
  | .null => []
  | .list xs => xs
  | v => [v]

/-- `" ".join(items)` on pre-filtered items. -/
def joinSpace (items : List String) : String :=
  String.intercalate " " items

/-- Python `text.split()`: whitespace-delimited words. -/
def pyWords (s : String) : List String :=
  (splitWs s.toList).map (fun w => String.mk w)

mutual

/-- `extract_text(obj)` of `src/fetch_wos_data.py` lines 33-48: total
defensive reduction of any value to one string.  Strings are stripped;
lists join the non-empty extractions of their elements; dictionaries
unwrap a `"p"` key, then a string-valued `"content"` or `"value"` key,
then join the extractions of all their values; other scalars give
`""`. -/
def extract_text : PyVal → String
  | .null => ""
  | .str s => pyStrip s
  | .list xs =>
    pyStrip (joinSpace ((extractTexts xs).filter (fun t => t ≠ "")))
  | .dict fs =>
    match h : alookup fs "p" with
    | some w => extract_text w
    | none =>
      match alookup fs "content" with
      | some (.str s) => pyStrip s
      | _ =>
        match alookup fs "value" with
        | some (.str s) => pyStrip s
        | _ =>
          pyStrip (joinSpace ((extractVals fs).filter (fun t => t ≠ "")))
  | _ => ""
termination_by v => sizeOf v
decreasing_by
  · simp only [PyVal.list.sizeOf_spec]; omega
  · have h1 := sizeOf_alookup fs h
    simp only [PyVal.dict.sizeOf_spec]; omega
  · simp only [PyVal.dict.sizeOf_spec]; omega

/-- Elementwise `extract_text` over a list's items. -/
def extractTexts : List PyVal → List String
  | [] => []
  | x :: rest => extract_text x :: extractTexts rest
termination_by xs => sizeOf xs
decreasing_by
  · simp only [List.cons.sizeOf_spec]; omega
  · simp only [List.cons.sizeOf_spec]; omega

/-- `extract_text` over a dictionary's values (`obj.values()`), in
insertion order. -/
def extractVals : List (String × PyVal) → List String
  | [] => []
  | kv :: rest => extract_text kv.2 :: extractVals rest
termination_by fs => sizeOf fs
decreasing_by
  · cases kv with
    | mk a b => simp only [List.cons.sizeOf_spec, Prod.mk.sizeOf_spec]; omega
  · simp only [List.cons.sizeOf_spec]; omega

end

/-- `get_abstract(rec)` of `src/fetch_wos_data.py` lines 187-193, in an
error monad: each `.get` raises `AttributeError` when its receiver is
not a dictionary (the `or {}` guards only replace falsy values). -/
def get_abstract (rec : PyVal) : Except String String := do
  let static0 ← pyGetD rec "static_data" (.dict [])
  let static := pyOr static0 (.dict [])
  let full_md0 ← pyGetD static "fullrecord_metadata" (.dict [])
  let full_md := pyOr full_md0 (.dict [])
  let abstracts0 ← pyGetD full_md "abstracts" (.dict [])
  let abstracts := pyOr abstracts0 (.dict [])
  let abs_val ← pyGetD abstracts "abstract" .null
  let abs_items := as_list abs_val
  let text := pyStrip (joinSpace (abs_items.map extract_text))
  pure (joinSpace (pyWords text))

/-! ## Record discovery (`src/fetch_wos_data.py` lines 105-160). -/

/-- `isinstance(x, dict)`. -/
def isDictB : PyVal → Bool
  | .dict _ => true
  | _ => false

/-- `isinstance(x, dict) and ("UID" in x or "uid" in x)`. -/
def hasUID : PyVal → Bool
  | .dict fs => (alookup fs "UID").isSome || (alookup fs "uid").isSome
  | _ => false

/-- The candidate lists contributed by a value found under a `"REC"`
key: a dictionary is wrapped in a singleton list, a non-empty list of
dictionaries is taken whole, anything else contributes nothing. -/
def recOf (v : PyVal) : List (List PyVal) :=
  match v with
  | .dict d => [[PyVal.dict d]]
  | .list l => if !l.isEmpty && l.all isDictB then [l] else []
  | _ => []

/-- The candidates contributed directly at one dictionary node: first
the `"REC"` key, then the `"records"` key (a list of dictionaries, or a
dictionary holding `"REC"`). -/
def candsAtDict (fs : List (String × PyVal)) : List (List PyVal) :=
  (match alookup fs "REC" with
   | some v => recOf v
   | none => []) ++
  (match alookup fs "records" with
   | some (.list l) => if !l.isEmpty && l.all isDictB then [l] else []
   | some (.dict d) =>
     (match alookup d "REC" with
      | some vv => recOf vv
      | none => [])
   | _ => [])

mutual

/-- The `walk` of `extract_records_any`: depth-first collection of all
candidate record lists, dictionary values visited in insertion
order. -/
def walkCands : PyVal → List (List PyVal)
  | .dict fs => candsAtDict fs ++ walkVals fs
  | .list xs => walkItems xs
  | _ => []
termination_by v => sizeOf v
decreasing_by
  · simp only [PyVal.dict.sizeOf_spec]; omega
  · simp only [PyVal.list.sizeOf_spec]; omega

/-- The walk over a list's items. -/
def walkItems : List PyVal → List (List PyVal)
  | [] => []
  | x :: rest => walkCands x ++ walkItems rest
termination_by xs => sizeOf xs
decreasing_by
  · simp only [List.cons.sizeOf_spec]; omega
  · simp only [List.cons.sizeOf_spec]; omega

/-- The walk over a dictionary's values, in insertion order. -/
def walkVals : List (String × PyVal) → List (List PyVal)
  | [] => []
  | kv :: rest => walkCands kv.2 ++ walkVals rest
termination_by fs => sizeOf fs
decreasing_by
  · cases kv with
    | mk a b => simp only [List.cons.sizeOf_spec, Prod.mk.sizeOf_spec]; omega
  · simp only [List.cons.sizeOf_spec]; omega

end

/-- The direct-path `try` block of `extract_records_any`: `some r` when
the block executes a `return`, `none` when it raises (caught) or falls
through to the walk. -/
def directPath (data : PyVal) : Option (List PyVal) :=
  match data with
  | .dict fs =>
    match lookupD fs "Data" (.dict []) with
    | .dict fs1 =>
      match lookupD fs1 "Records" (.dict []) with
      | .dict fs2 =>
        match lookupD fs2 "records" (.dict []) with
        | .dict rfs =>
          (match lookupD rfs "REC" (.list []) with
           | .dict d => some [PyVal.dict d]
           | .list l => some l
           | _ => none)
        | .list l => some l
        | _ => none
      | _ => none
    | _ => none
  | _ => none

/-- Python's `max(candidates, key=len)`: the first list of maximal
length. -/
def firstMaxLen (a : List PyVal) (l : List (List PyVal)) : List PyVal :=
  l.foldl (fun acc x => if x.length > acc.length then x else acc) a

/-- `extract_records_any(data)` of `src/fetch_wos_data.py`: the direct
path when it returns, otherwise the walk; the first longest candidate
is filtered to its UID-bearing entries when any exist. -/
def extract_records_any (data : PyVal) : List PyVal :=
  match directPath data with
  | some r => r
  | none =>
    match walkCands data with
    | [] => []
    | c :: cs =>
      let best := firstMaxLen c cs
      let withUid := best.filter hasUID
      if !withUid.isEmpty then withUid else best

/-! ## Helper lemmas. -/

theorem getLastD_mem {α : Type} {l : List α} (h : l ≠ []) (d : α) :
    l.getLastD d ∈ l := by
  rw [List.getLastD_eq_getLast?, List.getLast?_eq_getLast l h]
  exact List.getLast_mem h

theorem prefixBy_length_le {eqb : Char → Char → Bool} :
    ∀ {t u : List Char}, prefixBy eqb t u = true → t.length ≤ u.length := by
  intro t
  induction t with
  | nil => intro u _; simp
  | cons a as ih =>
    intro u h
    cases u with
    | nil => simp [prefixBy] at h
    | cons b bs =>
      simp only [prefixBy, Bool.and_eq_true] at h
      have := ih h.2
      simp only [List.length_cons]
      omega

theorem prefixBy_take {eqb : Char → Char → Bool} :
    ∀ {t u : List Char}, prefixBy eqb t u = true → prefixBy eqb t (u.take t.length) = true := by
  intro t
  induction t with
  | nil => intro u _; simp [prefixBy]
  | cons a as ih =>
    intro u h
    cases u with
    | nil => simp [prefixBy] at h
    | cons b bs =>
      simp only [prefixBy, Bool.and_eq_true] at h
      simp only [List.length_cons, List.take_succ_cons, prefixBy, Bool.and_eq_true]
      exact ⟨h.1, ih h.2⟩

theorem prefixBy_append {eqb : Char → Char → Bool} :
    ∀ {t u : List Char}, prefixBy eqb t u = true → ∀ w : List Char,
      prefixBy eqb t (u ++ w) = true := by
  intro t
  induction t with
  | nil => intro u _ w; simp [prefixBy]
  | cons a as ih =>
    intro u h w
    cases u with
    | nil => simp [prefixBy] at h
    | cons b bs =>
      simp only [prefixBy, Bool.and_eq_true] at h
      simp only [List.cons_append, prefixBy, Bool.and_eq_true]
      exact ⟨h.1, ih h.2 w⟩

theorem matchList_of_prefixBy {eqb : Char → Char → Bool} {t u : List Char}
    (h : prefixBy eqb t u = true) : matchList eqb t (u.take t.length) = true := by
  have hlen := prefixBy_length_le h
  simp only [matchList, Bool.and_eq_true, beq_iff_eq]
  exact ⟨(List.length_take_of_le hlen).symm, prefixBy_take h⟩

theorem prefixBy_of_matchList_append {eqb : Char → Char → Bool} {t u : List Char}
    (h : matchList eqb t u = true) (w : List Char) : prefixBy eqb t (u ++ w) = true := by
  simp only [matchList, Bool.and_eq_true] at h
  exact prefixBy_append h.2 w

/-- Unfolding of a successful whole-word attempt into a three-way split
of the text. -/
theorem wwAt_split {eqb : Char → Char → Bool} {t s : List Char} {i : Nat}
    (hi : i ≤ s.length) (h : wwAt eqb t s i = true) :
    wordOccurs eqb t s := by
  simp only [wwAt, Bool.and_eq_true] at h
  obtain ⟨⟨hpre, hprev⟩, hpost⟩ := h
  refine ⟨s.take i, (s.drop i).take t.length, s.drop (i + t.length), ?_, ?_, ?_, ?_⟩
  · have h1 : s.drop (i + t.length) = (s.drop i).drop t.length := by
      rw [List.drop_drop]
    rw [h1, List.append_assoc, List.take_append_drop, List.take_append_drop]
  · exact matchList_of_prefixBy hpre
  · by_cases hz : i = 0
    · subst hz; simp [notWordB]
    · have h1 : (s.take i).getLast? = s[i - 1]? := by
        rw [List.getLast?_eq_getElem?, List.length_take_of_le hi]
        rw [List.getElem?_take]
        simp only [if_pos (by omega : i - 1 < i)]
      rw [h1]
      simpa [prevOk, hz] using hprev
  · rw [List.head?_drop]
    exact hpost

/-- Conversely, a three-way split gives a successful whole-word attempt
at the split position. -/
theorem wwAt_of_split {eqb : Char → Char → Bool} {t pre mid post : List Char}
    (hmid : matchList eqb t mid = true)
    (hpre : notWordB pre.getLast? = true) (hpost : notWordB post.head? = true) :
    wwAt eqb t (pre ++ mid ++ post) pre.length = true := by
  have hlen : t.length = mid.length := by
    simp only [matchList, Bool.and_eq_true, beq_iff_eq] at hmid
    exact hmid.1
  simp only [wwAt, Bool.and_eq_true]
  refine ⟨⟨?_, ?_⟩, ?_⟩
  · have h1 : (pre ++ mid ++ post).drop pre.length = mid ++ post := by
      rw [List.append_assoc, List.drop_left]
    rw [h1]
    exact prefixBy_of_matchList_append hmid post
  · by_cases hz : pre.length = 0
    · simp [prevOk, hz]
    · have hpne : pre ≠ [] := by
        intro hc; subst hc; simp at hz
      have h1 : (pre ++ mid ++ post)[pre.length - 1]? = pre[pre.length - 1]? := by
        rw [List.append_assoc, List.getElem?_append_left (by omega)]
      simp only [prevOk, if_neg hz, h1]
      rw [← List.getLast?_eq_getElem?]
      exact hpre
  · have h1 : (pre ++ mid ++ post)[pre.length + t.length]? = post[0]? := by
      rw [List.append_assoc, List.getElem?_append_right (by simp)]
      rw [hlen]
      have h2 : pre.length + mid.length - pre.length = mid.length := by omega
      rw [h2, List.getElem?_append_right (le_refl mid.length)]
      simp
    rw [h1, ← List.head?_eq_getElem?]
    exact hpost

/-- The whole-word search succeeds exactly when the term occurs as a
separate word. -/
theorem wwSearch_iff (eqb : Char → Char → Bool) (t s : List Char) :
    wwSearch eqb t s = true ↔ wordOccurs eqb t s := by
  constructor
  · intro h
    simp only [wwSearch, List.any_eq_true] at h
    obtain ⟨i, hi, hat⟩ := h
    have := List.mem_range.mp hi
    exact wwAt_split (by omega) hat
  · rintro ⟨pre, mid, post, hs, hmid, hpre, hpost⟩
    subst hs
    simp only [wwSearch, List.any_eq_true]
    refine ⟨pre.length, List.mem_range.mpr ?_, wwAt_of_split hmid hpre hpost⟩
    simp only [List.length_append]
    omega

/-- A case-insensitive literal prefix match is exactly a prefix
relation between the lowercased lists. -/
theorem prefixBy_eqCI_iff :
    ∀ t u : List Char, prefixBy eqCI t u = true ↔
      t.map Char.toLower <+: u.map Char.toLower := by
  intro t
  induction t with
  | nil => intro u; simp [prefixBy]
  | cons a as ih =>
    intro u
    cases u with
    | nil => simp [prefixBy]
    | cons b bs =>
      simp only [prefixBy, Bool.and_eq_true, List.map_cons, List.cons_prefix_cons, eqCI,
        beq_iff_eq]
      exact and_congr Iff.rfl (ih bs)

/-- A case-sensitive literal prefix match is the plain prefix
relation. -/
theorem prefixBy_eqCS_iff :
    ∀ t u : List Char, prefixBy eqCS t u = true ↔ t <+: u := by
  intro t
  induction t with
  | nil => intro u; simp [prefixBy]
  | cons a as ih =>
    intro u
    cases u with
    | nil => simp [prefixBy]
    | cons b bs =>
      simp only [prefixBy, Bool.and_eq_true, List.cons_prefix_cons, eqCS, beq_iff_eq]
      exact and_congr Iff.rfl (ih bs)

/-- The unanchored substring search of the exclude patterns succeeds
exactly when the lowercased term is an infix of the lowercased text. -/
theorem subSearch_eqCI_iff (t s : List Char) :
    subSearch eqCI t s = true ↔ t.map Char.toLower <:+: s.map Char.toLower := by
  constructor
  · intro h
    simp only [subSearch, List.any_eq_true] at h
    obtain ⟨i, _, hp⟩ := h
    have hpre := (prefixBy_eqCI_iff t (s.drop i)).mp hp
    rw [List.map_drop] at hpre
    obtain ⟨w, hw⟩ := hpre
    exact ⟨(s.map Char.toLower).take i, w,
      by rw [List.append_assoc, hw, List.take_append_drop]⟩
  · rintro ⟨p, q, hs⟩
    simp only [subSearch, List.any_eq_true]
    refine ⟨p.length, List.mem_range.mpr ?_, ?_⟩
    · have h2 := congrArg List.length hs
      simp only [List.length_append, List.length_map] at h2
      omega
    · rw [prefixBy_eqCI_iff, List.map_drop]
      have hdrop : (s.map Char.toLower).drop p.length = t.map Char.toLower ++ q := by
        rw [← hs, List.append_assoc, List.drop_left]
      rw [hdrop]
      exact ⟨q, rfl⟩

theorem sepChar_not_word {c : Char} (h : sepChar c = true) : isWordChar c = false := by
  simp only [sepChar, Char.isWhitespace, Bool.or_eq_true, beq_iff_eq,
    decide_eq_true_eq] at h
  have h5 : c = ' ' ∨ c = '\t' ∨ c = '\r' ∨ c = '\n' ∨ c = '-' := by tauto
  rcases h5 with h | h | h | h | h
  all_goals (subst h; decide)

theorem splitWsGo_parts_ne :
    ∀ (l cur : List Char), ∀ p ∈ splitWsGo cur l, p ≠ [] := by
  intro l
  induction l with
  | nil =>
    intro cur p hp
    by_cases hc : cur.isEmpty
    · simp [splitWsGo, hc] at hp
    · rw [splitWsGo, if_neg hc] at hp
      rcases List.mem_singleton.mp hp with rfl
      simp only [ne_eq, List.reverse_eq_nil_iff]
      simpa [List.isEmpty_iff] using hc
  | cons c cs ih =>
    intro cur p hp
    rw [splitWsGo] at hp
    by_cases hw : c.isWhitespace
    · rw [if_pos hw] at hp
      by_cases hc : cur.isEmpty
      · rw [if_pos hc] at hp
        exact ih [] p hp
      · rw [if_neg hc] at hp
        rcases List.mem_cons.mp hp with h | h
        · rw [h]
          simp only [ne_eq, List.reverse_eq_nil_iff]
          simpa [List.isEmpty_iff] using hc
        · exact ih [] p h
    · rw [if_neg hw] at hp
      exact ih (c :: cur) p hp

theorem splitWs_parts_ne : ∀ (l : List Char), ∀ p ∈ splitWs l, p ≠ [] :=
  fun l => splitWsGo_parts_ne l []

theorem prefixBy_refl_append : ∀ (p w : List Char), prefixBy eqCI p (p ++ w) = true := by
  intro p
  induction p with
  | nil => intro w; simp [prefixBy]
  | cons a as ih =>
    intro w
    simp only [List.cons_append, prefixBy, Bool.and_eq_true, eqCI, beq_self_eq_true]
    refine ⟨?_, ih w⟩
    simp

theorem prefixBy_ne_nil {eqb : Char → Char → Bool} {t u : List Char}
    (h : prefixBy eqb t u = true) (ht : t ≠ []) : u ≠ [] := by
  cases t with
  | nil => exact absurd rfl ht
  | cons a as =>
    cases u with
    | nil => simp [prefixBy] at h
    | cons b bs => simp

/-- In any successful full-name match, the final name part occurs at
some offset, right-bounded by the trailing lookahead and left-bounded
either by the start of the match or by a separator character. -/
theorem matchParts_last :
    ∀ (parts : List (List Char)) (s : List Char),
      parts ≠ [] → (∀ p ∈ parts, p ≠ []) → matchParts parts s = true →
      ∃ j last, parts.getLast? = some last ∧
        prefixBy eqCI last (s.drop j) = true ∧
        notWordB s[j + last.length]? = true ∧
        (j = 0 ∨ (1 ≤ j ∧ ∃ c, s[j - 1]? = some c ∧ sepChar c = true)) := by
  intro parts
  induction parts with
  | nil => intro s h; exact absurd rfl h
  | cons p rest ih =>
    intro s _ hps h
    cases rest with
    | nil =>
      simp only [matchParts, Bool.and_eq_true] at h
      refine ⟨0, p, ?_, ?_, ?_, ?_⟩
      · simp
      · simpa using h.1
      · simpa using h.2
      · exact Or.inl rfl
    | cons q ps =>
      simp only [matchParts, Bool.and_eq_true, List.any_eq_true, List.mem_range] at h
      obtain ⟨_, j2, hj2, htake, hmp⟩ := h
      have hrec := ih ((s.drop p.length).drop (j2 + 1)) (by simp)
        (fun x hx => hps x (List.mem_cons_of_mem p hx)) hmp
      obtain ⟨j', last, hlast, hpre', hnw', hbound⟩ := hrec
      refine ⟨p.length + (j2 + 1) + j', last, ?_, ?_, ?_, ?_⟩
      · rw [List.getLast?_cons_cons]; exact hlast
      · have h1 : ((s.drop p.length).drop (j2 + 1)).drop j' =
            s.drop (p.length + (j2 + 1) + j') := by
          rw [List.drop_drop, List.drop_drop]
          congr 1
          omega
        rw [← h1]
        exact hpre'
      · have h1 : ((s.drop p.length).drop (j2 + 1))[j' + last.length]? =
            s[p.length + (j2 + 1) + j' + last.length]? := by
          rw [List.getElem?_drop, List.getElem?_drop]
          congr 1
          omega
        rw [← h1]
        exact hnw'
      · right
        constructor
        · omega
        rcases hbound with hz | ⟨hj1, c, hc, hsep⟩
        · subst hz
          have hlt : j2 < (s.drop p.length).length := hj2
          have hsome : (s.drop p.length)[j2]? = some (s.drop p.length)[j2] :=
            List.getElem?_eq_getElem hlt
          refine ⟨(s.drop p.length)[j2], ?_, ?_⟩
          · have hA : p.length + (j2 + 1) + 0 - 1 = p.length + j2 := by omega
            rw [hA]
            exact (List.getElem?_drop s p.length j2).symm.trans hsome
          · have htk : ((s.drop p.length).take (j2 + 1))[j2]? =
                some (s.drop p.length)[j2] := by
              rw [List.getElem?_take, if_pos (by omega)]
              exact hsome
            exact List.all_eq_true.mp htake _ (List.getElem?_mem htk)
        · refine ⟨c, ?_, hsep⟩
          have h1 : s[p.length + (j2 + 1) + j' - 1]? =
              ((s.drop p.length).drop (j2 + 1))[j' - 1]? := by
            rw [List.getElem?_drop, List.getElem?_drop]
            congr 1
            omega
          rw [h1]
          exact hc

theorem head?_some_mem {α : Type} {l : List α} {a : α} (h : l.head? = some a) : a ∈ l := by
  cases l with
  | nil => simp at h
  | cons x xs =>
    simp only [List.head?_cons, Option.some.injEq] at h
    rw [← h]
    exact List.mem_cons_self x xs

/-- A successful greedy (`findall`) match implies a successful
backtracking (`search`) match of the same alternative. -/
theorem greedyLen_matchParts :
    ∀ (parts : List (List Char)) (s : List Char) (L : Nat),
      greedyLen parts s = some L → matchParts parts s = true := by
  intro parts
  induction parts with
  | nil =>
    intro s L h
    rw [greedyLen] at h
    by_cases hw : notWordB s[0]?
    · simpa [matchParts] using hw
    · rw [if_neg hw] at h; simp at h
  | cons p rest ih =>
    intro s L h
    cases rest with
    | nil =>
      rw [greedyLen] at h
      by_cases hw : prefixBy eqCI p s && notWordB s[p.length]?
      · simpa [matchParts] using hw
      · rw [if_neg hw] at h; simp at h
    | cons q ps =>
      rw [greedyLen] at h
      by_cases hp : prefixBy eqCI p s
      · rw [if_pos hp] at h
        cases hh : ((List.range (s.drop p.length).length).reverse.filterMap (fun j =>
            if ((s.drop p.length).take (j + 1)).all sepChar then
              match greedyLen (q :: ps) ((s.drop p.length).drop (j + 1)) with
              | some m => some ((j + 1) + m)
              | none => none
            else none)).head? with
        | none => rw [hh] at h; simp at h
        | some r =>
          obtain ⟨j, hjmem, hf⟩ := List.mem_filterMap.mp (head?_some_mem hh)
          have hj : j < (s.drop p.length).length :=
            List.mem_range.mp (List.mem_reverse.mp hjmem)
          by_cases hsep : ((s.drop p.length).take (j + 1)).all sepChar
          · rw [if_pos hsep] at hf
            cases hg : greedyLen (q :: ps) ((s.drop p.length).drop (j + 1)) with
            | none => rw [hg] at hf; simp at hf
            | some m =>
              have hm := ih _ _ hg
              simp only [matchParts, Bool.and_eq_true, List.any_eq_true, List.mem_range]
              exact ⟨hp, j, hj, hsep, hm⟩
          · rw [if_neg hsep] at hf
            simp at hf
      · rw [if_neg hp] at h; simp at h

/-- Constructing a full-name match from a parts/separators
decomposition. -/
theorem matchParts_interleave :
    ∀ (parts seps : List (List Char)) (tail : List Char),
      parts ≠ [] → parts.length = seps.length + 1 →
      (∀ sp ∈ seps, sp ≠ [] ∧ sp.all sepChar = true) →
      notWordB tail[0]? = true →
      matchParts parts (interleave parts seps ++ tail) = true := by
  intro parts
  induction parts with
  | nil => intro seps tail h; exact absurd rfl h
  | cons p rest ih =>
    intro seps tail _ hlen hsep htail
    cases rest with
    | nil =>
      have : interleave [p] seps = p := by cases seps <;> rfl
      rw [this]
      simp only [matchParts, Bool.and_eq_true]
      constructor
      · exact prefixBy_refl_append p tail
      · rw [List.getElem?_append_right (le_refl p.length)]
        simpa using htail
    | cons q ps =>
      cases seps with
      | nil => simp at hlen
      | cons sp ss =>
        have hspne : sp ≠ [] ∧ sp.all sepChar = true := hsep sp (by simp)
        have hs : interleave (p :: q :: ps) (sp :: ss) ++ tail =
            p ++ (sp ++ (interleave (q :: ps) ss ++ tail)) := by
          show (p ++ sp ++ interleave (q :: ps) ss) ++ tail = _
          rw [List.append_assoc, List.append_assoc]
        rw [hs]
        simp only [matchParts, Bool.and_eq_true, List.any_eq_true, List.mem_range]
        refine ⟨prefixBy_refl_append p _, sp.length - 1, ?_, ?_, ?_⟩
        · rw [List.drop_left]
          have h1 : 1 ≤ sp.length := by
            cases sp with
            | nil => exact absurd rfl hspne.1
            | cons a l => simp
          simp only [List.length_append]
          omega
        · rw [List.drop_left]
          have h1 : sp.length - 1 + 1 = sp.length := by
            cases sp with
            | nil => exact absurd rfl hspne.1
            | cons a l => simp
          rw [h1, List.take_left]
          exact hspne.2
        · rw [List.drop_left]
          have h1 : sp.length - 1 + 1 = sp.length := by
            cases sp with
            | nil => exact absurd rfl hspne.1
            | cons a l => simp
          rw [h1, List.drop_left]
          exact ih ss tail (by simp) (by simpa using hlen) (fun x hx => hsep x (by simp [hx]))
            htail

/-- A full-name alternative matching at position `i` of the text forces
the corresponding last name to match as a whole word, so the last-name
pre-filter fires. -/
theorem matchParts_lastname {names : List String} {text : String} {n : String}
    (hn : n ∈ names) (hne : nameParts n ≠ [])
    {i : Nat} (hprev : prevOk text.toList i = true)
    (hm : matchParts (nameParts n) (text.toList.drop i) = true) :
    lastnameSearch names text = true := by
  have hps : ∀ p ∈ nameParts n, p ≠ [] := fun p hp =>
    splitWs_parts_ne (pyStrip n).toList p hp
  obtain ⟨j, last, hlast, hpre, hnw, hbound⟩ :=
    matchParts_last (nameParts n) (text.toList.drop i) hne hps hm
  have hlastD : lastNameOf n = last := by
    unfold lastNameOf
    rw [List.getLastD_eq_getLast?, hlast]
    rfl
  have hlastne : last ≠ [] := by
    rw [← hlastD]
    rw [← hlastD] at hlast
    exact hps _ (by
      rw [hlastD] at hlast ⊢
      have := getLastD_mem hne ([] : List Char)
      unfold lastNameOf at hlastD
      rw [hlastD] at this
      exact this)
  have hmem : last ∈ piLastnames names := by
    unfold piLastnames
    rw [← hlastD]
    apply List.mem_filter.mpr
    refine ⟨List.mem_map.mpr ⟨n, hn, rfl⟩, ?_⟩
    rw [hlastD]
    simpa using hlastne
  have hww : wwSearch eqCI last text.toList = true := by
    have hdj : (text.toList.drop i).drop j = text.toList.drop (i + j) := by
      rw [List.drop_drop]
    rw [hdj] at hpre
    have hij : i + j < text.toList.length := by
      have hnn : text.toList.drop (i + j) ≠ [] := prefixBy_ne_nil hpre hlastne
      by_contra hc
      push_neg at hc
      exact hnn (List.drop_eq_nil_of_le hc)
    simp only [wwSearch, List.any_eq_true, List.mem_range]
    refine ⟨i + j, by omega, ?_⟩
    simp only [wwAt, Bool.and_eq_true]
    refine ⟨⟨hpre, ?_⟩, ?_⟩
    · rcases hbound with hz | ⟨hj1, c, hc, hsep⟩
      · subst hz
        simpa using hprev
      · have hij0 : i + j ≠ 0 := by omega
        simp only [prevOk, if_neg hij0]
        have h1 : text.toList[i + j - 1]? = (text.toList.drop i)[j - 1]? := by
          rw [List.getElem?_drop]
          congr 1
          omega
        rw [h1, hc]
        simpa [notWordB] using sepChar_not_word hsep
    · have h1 : text.toList[i + j + last.length]? =
          (text.toList.drop i)[j + last.length]? := by
        rw [List.getElem?_drop]
        congr 1
        omega
      rw [h1]
      exact hnw
  simp only [lastnameSearch, List.any_eq_true]
  exact ⟨last, hmem, hww⟩

theorem firstGreedy_some :
    ∀ (nps : List (List (List Char))) (u : List Char) (L : Nat),
      firstGreedy nps u = some L → ∃ ps ∈ nps, ∃ m, greedyLen ps u = some m := by
  intro nps
  induction nps with
  | nil => intro u L h; simp [firstGreedy] at h
  | cons ps rest ih =>
    intro u L h
    rw [firstGreedy] at h
    cases hg : greedyLen ps u with
    | some m => exact ⟨ps, by simp, m, hg⟩
    | none =>
      rw [hg] at h
      obtain ⟨ps', hmem, m, hm⟩ := ih u L h
      exact ⟨ps', by simp [hmem], m, hm⟩

/-- When the last-name pre-filter fails, `PI_REGEX.findall` finds
nothing.  This is the heart of the two-stage/single-stage
equivalence. -/
theorem findallGo_nil {names : List String} {text : String}
    (hne : ∀ n ∈ names, nameParts n ≠ [])
    (hlast : lastnameSearch names text = false) :
    ∀ (fuel i : Nat), findallGo (names.map nameParts) text.toList i fuel = [] := by
  intro fuel
  induction fuel with
  | zero => intro i; rfl
  | succ f ih =>
    intro i
    rw [findallGo]
    by_cases hi : i ≤ text.toList.length
    · rw [if_pos hi]
      by_cases hprev : prevOk text.toList i
      · rw [if_pos hprev]
        cases hfg : firstGreedy (names.map nameParts) (text.toList.drop i) with
        | none => exact ih (i + 1)
        | some L =>
          exfalso
          obtain ⟨ps, hmem, m, hm⟩ := firstGreedy_some _ _ _ hfg
          obtain ⟨n, hn, hpn⟩ := List.mem_map.mp hmem
          subst hpn
          have hmp := greedyLen_matchParts _ _ _ hm
          have := matchParts_lastname hn (hne n hn) hprev hmp
          rw [hlast] at this
          exact Bool.false_ne_true this
      · rw [if_neg hprev]
        exact ih (i + 1)
    · rw [if_neg hi]

theorem dedupeLowerGo_pairwise :
    ∀ (xs : List String) (seen : List (List Char)),
      (dedupeLowerGo seen xs).Pairwise (fun a b => lcStr a ≠ lcStr b) ∧
      ∀ y ∈ dedupeLowerGo seen xs, lcStr y ∉ seen := by
  intro xs
  induction xs with
  | nil => intro seen; simp [dedupeLowerGo]
  | cons x rest ih =>
    intro seen
    by_cases h0 : pyStrip x = ""
    · simpa [dedupeLowerGo, h0] using ih seen
    · by_cases h1 : lcStr (pyStrip x) ∈ seen
      · simpa [dedupeLowerGo, h0, h1] using ih seen
      · have hout : dedupeLowerGo seen (x :: rest) =
            pyStrip x :: dedupeLowerGo (lcStr (pyStrip x) :: seen) rest := by
          simp [dedupeLowerGo, h0, h1]
        rw [hout]
        obtain ⟨ihp, ihs⟩ := ih (lcStr (pyStrip x) :: seen)
        refine ⟨List.pairwise_cons.mpr ⟨?_, ihp⟩, ?_⟩
        · intro y hy
          have := ihs y hy
          simp only [List.mem_cons, not_or] at this
          exact fun hc => this.1 hc.symm
        · intro y hy
          rcases List.mem_cons.mp hy with h | h
          · rw [h]; exact h1
          · exact fun hc => ihs y h (List.mem_cons_of_mem _ hc)

theorem dedupeLowerGo_sublist :
    ∀ (xs : List String) (seen : List (List Char)),
      (dedupeLowerGo seen xs).Sublist (xs.map pyStrip) := by
  intro xs
  induction xs with
  | nil => intro seen; simp [dedupeLowerGo]
  | cons x rest ih =>
    intro seen
    rw [dedupeLowerGo, List.map_cons]
    by_cases h0 : pyStrip x = ""
    · rw [if_pos h0]
      exact (ih seen).cons (pyStrip x)
    · rw [if_neg h0]
      by_cases h1 : seen.contains (lcStr (pyStrip x))
      · rw [if_pos h1]
        exact (ih seen).cons (pyStrip x)
      · rw [if_neg h1]
        exact (ih _).cons₂ (pyStrip x)

theorem dedupeExactGo_pairwise :
    ∀ (xs : List String) (seen : List String),
      (dedupeExactGo seen xs).Pairwise (fun a b => a ≠ b) ∧
      ∀ y ∈ dedupeExactGo seen xs, y ∉ seen := by
  intro xs
  induction xs with
  | nil => intro seen; simp [dedupeExactGo]
  | cons x rest ih =>
    intro seen
    by_cases h0 : pyStrip x = ""
    · simpa [dedupeExactGo, h0] using ih seen
    · by_cases h1 : pyStrip x ∈ seen
      · simpa [dedupeExactGo, h0, h1] using ih seen
      · have hout : dedupeExactGo seen (x :: rest) =
            pyStrip x :: dedupeExactGo (pyStrip x :: seen) rest := by
          simp [dedupeExactGo, h0, h1]
        rw [hout]
        obtain ⟨ihp, ihs⟩ := ih (pyStrip x :: seen)
        refine ⟨List.pairwise_cons.mpr ⟨?_, ihp⟩, ?_⟩
        · intro y hy
          have := ihs y hy
          simp only [List.mem_cons, not_or] at this
          exact fun hc => this.1 hc.symm
        · intro y hy
          rcases List.mem_cons.mp hy with h | h
          · rw [h]; exact h1
          · exact fun hc => ihs y h (List.mem_cons_of_mem _ hc)

theorem dedupeExactGo_sublist :
    ∀ (xs : List String) (seen : List String),
      (dedupeExactGo seen xs).Sublist (xs.map pyStrip) := by
  intro xs
  induction xs with
  | nil => intro seen; simp [dedupeExactGo]
  | cons x rest ih =>
    intro seen
    rw [dedupeExactGo, List.map_cons]
    by_cases h0 : pyStrip x = ""
    · rw [if_pos h0]
      exact (ih seen).cons (pyStrip x)
    · rw [if_neg h0]
      by_cases h1 : seen.contains (pyStrip x)
      · rw [if_pos h1]
        exact (ih seen).cons (pyStrip x)
      · rw [if_neg h1]
        exact (ih _).cons₂ (pyStrip x)

theorem firstMaxLen_spec :
    ∀ (l : List (List PyVal)) (a : List PyVal),
      firstMaxLen a l ∈ a :: l ∧
      (∀ x ∈ a :: l, x.length ≤ (firstMaxLen a l).length) ∧
      ∃ pre post, a :: l = pre ++ firstMaxLen a l :: post ∧
        ∀ y ∈ pre, y.length < (firstMaxLen a l).length := by
  intro l
  induction l with
  | nil =>
    intro a
    refine ⟨by simp [firstMaxLen], ?_, [], [], by simp [firstMaxLen], by simp⟩
    intro x hx
    simp only [firstMaxLen, List.foldl_nil]
    rcases List.mem_cons.mp hx with h | h
    · subst h; exact le_refl _
    · simp at h
  | cons x xs ih =>
    intro a
    have hstep : firstMaxLen a (x :: xs) =
        firstMaxLen (if x.length > a.length then x else a) xs := by
      simp [firstMaxLen]
    by_cases hx : x.length > a.length
    · rw [hstep, if_pos hx]
      obtain ⟨hmem, hbound, pre', post', hdec, hpre'⟩ := ih x
      refine ⟨?_, ?_, a :: pre', post', ?_, ?_⟩
      · rcases List.mem_cons.mp hmem with h | h
        · rw [h]; simp
        · simp [h]
      · intro y hy
        rcases List.mem_cons.mp hy with h | h
        · subst h
          have := hbound x (by simp)
          omega
        · exact hbound y h
      · rw [List.cons_append, ← hdec]
      · intro y hy
        rcases List.mem_cons.mp hy with h | h
        · subst h
          have := hbound x (by simp)
          omega
        · exact hpre' y h
    · rw [hstep, if_neg hx]
      obtain ⟨hmem, hbound, pre', post', hdec, hpre'⟩ := ih a
      refine ⟨?_, ?_, ?_⟩
      · rcases List.mem_cons.mp hmem with h | h
        · rw [h]; simp
        · simp [h]
      · intro y hy
        rcases List.mem_cons.mp hy with h | h
        · rw [h]; exact hbound a (by simp)
        · rcases List.mem_cons.mp h with h2 | h2
          · rw [h2]
            have := hbound a (by simp)
            omega
          · exact hbound y (by simp [h2])
      · cases pre' with
        | nil =>
          simp only [List.nil_append] at hdec
          refine ⟨[], x :: xs, ?_, by simp⟩
          rw [List.nil_append]
          have ha : firstMaxLen a xs = a := (List.cons.injEq _ _ _ _).mp hdec |>.1.symm
          rw [ha]
        | cons b pre'' =>
          have hb : b = a ∧ xs = pre'' ++ firstMaxLen a xs :: post' := by
            rw [List.cons_append] at hdec
            exact ⟨((List.cons.injEq _ _ _ _).mp hdec).1.symm,
              ((List.cons.injEq _ _ _ _).mp hdec).2⟩
          refine ⟨a :: x :: pre'', post', ?_, ?_⟩
          · rw [List.cons_append, List.cons_append, ← hb.2]
          · intro y hy
            rcases List.mem_cons.mp hy with h | h
            · rw [h]
              exact hpre' a (hb.1 ▸ List.mem_cons_self b pre'')
            · rcases List.mem_cons.mp h with h2 | h2
              · rw [h2]
                have := hpre' a (hb.1 ▸ List.mem_cons_self b pre'')
                omega
              · exact hpre' y (by simp [h2])

/-! ## Claim theorems. -/

/-- Claim C1, counterexample: with all three term lists empty, the
script version of `include_match` is still true for a fulltext
containing `"SCoRe"` as a whole word, because the script compiles
`SCORE_REGEX` unconditionally; the claim asserts `include_match` is
false for every row regardless of fulltext content. -/
theorem C1_counterexample :
    include_match ⟨[], [], []⟩ "We use SCoRe" = true := by decide

/-- Claim C1, amended: with all three term lists empty, the exclude and
category-exclude patterns never match, the notebook's `include_match`
is false for every row, and the script's `include_match` reduces to the
unconditional case-sensitive whole-word `SCoRe` test (so it is false
exactly on rows without a case-sensitive whole-word `"SCoRe"`). -/
theorem C1_empty_config_never_matches (text ctext : String) :
    exclude_match ⟨[], [], []⟩ text = false ∧
    exclude_category_match ⟨[], [], []⟩ ctext = false ∧
    include_match_nb ⟨[], [], []⟩ text = false ∧
    include_match ⟨[], [], []⟩ text = scoreMatch text := by
  refine ⟨rfl, rfl, ?_, ?_⟩
  · simp [include_match_nb, normalIncludeSearch, normalTerms]
  · simp [include_match, normalIncludeSearch, normalTerms]

/-- Claim C2: the record normalizer is claimed never to raise on
malformed input, but `get_abstract` (like every extractor sharing the
`rec.get("static_data", {}) or {}` idiom) raises `AttributeError` when
`static_data` holds a truthy non-dictionary, because `or {}` only
replaces falsy values and the subsequent `.get` is then called on a
string. -/
theorem C2_normalizer_raises :
    get_abstract (PyVal.dict [("static_data", PyVal.str "a")]) =
      Except.error "AttributeError" := rfl

/-- Claim C5: with `include_terms = ["SCoRe"]`, classification is
case-sensitive for the ambiguous term: `"We use the SCORE method"` does
not match, `"We use the SCoRe framework"` matches with matched term
`"SCoRe"`, and any text the ambiguous pattern accepts contains the
exact-cased string `"SCoRe"`. -/
theorem C5_ambiguous_case_sensitive :
    include_match ⟨["SCoRe"], [], []⟩ "We use the SCORE method" = false ∧
    include_match ⟨["SCoRe"], [], []⟩ "We use the SCoRe framework" = true ∧
    extract_include_phrase ⟨["SCoRe"], [], []⟩ "We use the SCoRe framework" = "SCoRe" ∧
    ∀ text : String, scoreMatch text = true → "SCoRe".toList <:+: text.toList := by
  refine ⟨by decide, by decide, by decide, ?_⟩
  intro text h
  simp only [scoreMatch] at h
  obtain ⟨pre, mid, post, hs, hmid, _, _⟩ := (wwSearch_iff eqCS _ _).mp h
  have hmeq : "SCoRe".toList = mid := by
    simp only [matchList, Bool.and_eq_true, beq_iff_eq] at hmid
    exact List.IsPrefix.eq_of_length ((prefixBy_eqCS_iff _ _).mp hmid.2) hmid.1
  exact ⟨pre, post, by rw [hs, hmeq]⟩

/-- Claim C5, witness: the case-sensitivity theorem applied at a
concrete text. -/
theorem C5_witness :
    scoreMatch "a SCoRe b" = true ∧ "SCoRe".toList <:+: "a SCoRe b".toList :=
  ⟨by decide, C5_ambiguous_case_sensitive.2.2.2 "a SCoRe b" (by decide)⟩

/-- Claim C6, counterexample: the `dedupe_keep_order` of
`src/fetch_wos_data.py` — the one used for agencies, grants, keywords,
categories and author emails — is case-sensitive, so the claimed
case-insensitive collapse `["Alpha", "alpha", "Beta"] → ["Alpha",
"Beta"]` fails on it. -/
theorem C6_counterexample :
    dedupe_keep_order_fetch ["Alpha", "alpha", "Beta"] = ["Alpha", "alpha", "Beta"] ∧
    dedupe_keep_order_fetch ["Alpha", "alpha", "Beta"] ≠ ["Alpha", "Beta"] :=
  ⟨by decide, by decide⟩

/-- Claim C6, amended: only the filter script's `dedupe_keep_order`
(used for matched PI names) is case-insensitive; the fetch script's
(used for agencies, grants, keywords, categories, author emails) is
exact-string. Both preserve first-seen order of the stripped items, and
the respective outputs are duplicate-free under their own keys. -/
theorem C6_dedupe_behaviour :
    dedupe_keep_order_filter ["Alpha", "alpha", "Beta"] = ["Alpha", "Beta"] ∧
    dedupe_keep_order_fetch ["Alpha", "alpha", "Beta"] = ["Alpha", "alpha", "Beta"] ∧
    ∀ xs : List String,
      (dedupe_keep_order_filter xs).Pairwise (fun a b => lcStr a ≠ lcStr b) ∧
      (dedupe_keep_order_filter xs).Sublist (xs.map pyStrip) ∧
      (dedupe_keep_order_fetch xs).Pairwise (fun a b => a ≠ b) ∧
      (dedupe_keep_order_fetch xs).Sublist (xs.map pyStrip) := by
  refine ⟨by decide, by decide, fun xs => ⟨?_, ?_, ?_, ?_⟩⟩
  · exact (dedupeLowerGo_pairwise xs []).1
  · exact dedupeLowerGo_sublist xs []
  · exact (dedupeExactGo_pairwise xs []).1
  · exact dedupeExactGo_sublist xs []

/-- Claim C9: with a non-empty exclude list, `exclude_match` is true
exactly when some configured term occurs anywhere in the fulltext under
case-insensitive comparison, with no word-boundary anchoring and the
term treated as a literal. -/
theorem C9_exclude_substring (terms : List String) (text : String) (_h : terms ≠ []) :
    exclude_match ⟨[], terms, []⟩ text = true ↔
      ∃ t ∈ terms, t.toList.map Char.toLower <:+: text.toList.map Char.toLower := by
  constructor
  · intro hm
    obtain ⟨t, ht, hs⟩ := List.any_eq_true.mp hm
    exact ⟨t, ht, (subSearch_eqCI_iff _ _).mp hs⟩
  · rintro ⟨t, ht, hs⟩
    exact List.any_eq_true.mpr ⟨t, ht, (subSearch_eqCI_iff _ _).mpr hs⟩

/-- Claim C9, witness: the substring law applied to a concrete
mid-word, differently-cased occurrence. -/
theorem C9_witness :
    (["onco"] : List String) ≠ [] ∧
    (exclude_match ⟨[], ["onco"], []⟩ "the Oncology dept" = true ↔
      ∃ t ∈ (["onco"] : List String),
        t.toList.map Char.toLower <:+: "the Oncology dept".toList.map Char.toLower) :=
  ⟨by decide, C9_exclude_substring ["onco"] "the Oncology dept" (by decide)⟩

/-- Claim C10: any include term whose lowercase form is `"score"`
(including the exact term `"SCoRe"`) is removed from the normal-include
alternation; consequently a configuration whose only include term is
such a term classifies as non-matching any fulltext without a
case-sensitive whole-word `"SCoRe"` — in both the script and the
notebook variant. -/
theorem C10_score_variants_filtered (ts : List String) (t : String) (text : String)
    (hlow : lcStr t = "score".toList) (hsc : scoreMatch text = false) :
    t ∉ normalTerms ts ∧
    include_match ⟨[t], [], []⟩ text = false ∧
    include_match_nb ⟨[t], [], []⟩ text = false := by
  have hnt : normalTerms [t] = [] := by
    simp [normalTerms, hlow]
  refine ⟨?_, ?_, ?_⟩
  · intro hmem
    have := List.mem_filter.mp hmem
    simp [hlow] at this
  · simp [include_match, normalIncludeSearch, hnt, hsc]
  · simp [include_match_nb, normalIncludeSearch, hnt, hsc]

/-- Claim C10, witness: the filtering theorem applied to the term
`"SCORE"` and the text `"We use the SCORE method"`. -/
theorem C10_witness :
    lcStr "SCORE" = "score".toList ∧
    scoreMatch "We use the SCORE method" = false ∧
    ("SCORE" ∉ normalTerms ["SCORE", "alpha"] ∧
     include_match ⟨["SCORE"], [], []⟩ "We use the SCORE method" = false ∧
     include_match_nb ⟨["SCORE"], [], []⟩ "We use the SCORE method" = false) :=
  ⟨by decide, by decide,
    C10_score_variants_filtered ["SCORE", "alpha"] "SCORE" "We use the SCORE method"
      (by decide) (by decide)⟩

/-- Claim C4, counterexample: the configured include term `"score"`
appears as a separate word in `"the score is high"`, yet
`include_match` is false, because terms whose lowercase form is
`"score"` are removed from the alternation; the claim asserts
`include_match` is true for every configured term occurring as a
separate word. -/
theorem C4_counterexample :
    include_match ⟨["score"], [], []⟩ "the score is high" = false := by decide

/-- Claim C4, amended: for a configuration whose only include term is
`t`, (a) if `t`'s lowercase form is not `"score"` and `t` occurs in the
text as a separate word (case-insensitively, with no word character
adjacent on either side), `include_match` is true; (b) if `t` occurs
only inside longer words (no separate-word occurrence) and the text
also contains no case-sensitive whole-word `"SCoRe"` (the script's
unconditional ambiguous pattern), `include_match` is false. -/
theorem C4_word_boundary (t : String) (text : String) :
    (lcStr t ≠ "score".toList → wordOccurs eqCI t.toList text.toList →
      include_match ⟨[t], [], []⟩ text = true) ∧
    (scoreMatch text = false → ¬ wordOccurs eqCI t.toList text.toList →
      include_match ⟨[t], [], []⟩ text = false) := by
  constructor
  · intro hlow hocc
    have hww : wwSearch eqCI t.toList text.toList = true := (wwSearch_iff _ _ _).mpr hocc
    have hts : t ≠ "SCoRe" := by
      intro hc
      rw [hc] at hlow
      exact hlow (by decide)
    have hcond : (!(lcStr t == "score".toList || t == "SCoRe")) = true := by
      have h1 : (lcStr t == "score".toList) = false := beq_eq_false_iff_ne.mpr hlow
      have h2 : (t == "SCoRe") = false := beq_eq_false_iff_ne.mpr hts
      rw [h1, h2]
      rfl
    have hnt : normalTerms [t] = [t] := by
      simp only [normalTerms, List.filter_cons, List.filter_nil, hcond, if_true]
    have hni : normalIncludeSearch [t] text = true := by
      simp only [normalIncludeSearch, hnt, List.any_cons, List.any_nil, Bool.or_false]
      exact hww
    simp [include_match, hni]
  · intro hsc hnocc
    have hns : normalIncludeSearch [t] text = false := by
      by_contra hcc
      rw [Bool.not_eq_false] at hcc
      simp only [normalIncludeSearch] at hcc
      obtain ⟨t', ht', hww⟩ := List.any_eq_true.mp hcc
      have ht2 : t' = t := by
        have := List.mem_filter.mp ht'
        simpa using this.1
      rw [ht2] at hww
      exact hnocc ((wwSearch_iff _ _ _).mp hww)
    simp [include_match, hsc, hns]

/-- Claim C4, witness: the boundary law applied to the term
`"galaxy"`, as a separate word and buried inside a longer word. -/
theorem C4_witness :
    include_match ⟨["galaxy"], [], []⟩ "a galaxy far away" = true ∧
    include_match ⟨["galaxy"], [], []⟩ "the intergalaxyzone" = false := by
  constructor
  · exact (C4_word_boundary "galaxy" "a galaxy far away").1 (by decide)
      ((wwSearch_iff eqCI "galaxy".toList "a galaxy far away".toList).mp (by decide))
  · refine (C4_word_boundary "galaxy" "the intergalaxyzone").2 (by decide) ?_
    intro hocc
    have := (wwSearch_iff eqCI "galaxy".toList "the intergalaxyzone".toList).mpr hocc
    exact absurd this (by decide)

/-- Claim C8: full-name matching tolerates whitespace/hyphen variation
between name parts: whenever the name's parts appear in the text
separated by non-empty runs of separator characters, at word
boundaries, the full-name pattern matches; in particular
`"Anna Svensson"` matches both `"Anna-Svensson"` and
`"Anna  Svensson"`. -/
theorem C8_separator_variation :
    (∀ (name : String) (seps : List (List Char)) (pre post : List Char),
      nameParts name ≠ [] →
      (nameParts name).length = seps.length + 1 →
      (∀ sp ∈ seps, sp ≠ [] ∧ sp.all sepChar = true) →
      notWordB pre.getLast? = true → notWordB post.head? = true →
      piSearchL [nameParts name] (pre ++ interleave (nameParts name) seps ++ post) = true) ∧
    piSearch ["Anna Svensson"] "funded by Anna-Svensson et al" = true ∧
    piSearch ["Anna Svensson"] "funded by Anna  Svensson et al" = true := by
  refine ⟨?_, by decide, by decide⟩
  intro name seps pre post hne hlen hsep hpre hpost
  have hmp : matchParts (nameParts name)
      ((pre ++ interleave (nameParts name) seps ++ post).drop pre.length) = true := by
    have hd : (pre ++ interleave (nameParts name) seps ++ post).drop pre.length =
        interleave (nameParts name) seps ++ post := by
      rw [List.append_assoc, List.drop_left]
    rw [hd]
    refine matchParts_interleave (nameParts name) seps post hne hlen hsep ?_
    rw [← List.head?_eq_getElem?]
    exact hpost
  have hprev : prevOk (pre ++ interleave (nameParts name) seps ++ post) pre.length = true := by
    by_cases hz : pre.length = 0
    · simp [prevOk, hz]
    · simp only [prevOk, if_neg hz]
      have h1 : (pre ++ interleave (nameParts name) seps ++ post)[pre.length - 1]? =
          pre[pre.length - 1]? := by
        rw [List.append_assoc, List.getElem?_append_left (by omega)]
      rw [h1, ← List.getLast?_eq_getElem?]
      exact hpre
  simp only [piSearchL, List.any_eq_true, List.mem_range]
  refine ⟨pre.length, ?_, ?_⟩
  · simp only [List.length_append]
    omega
  · simp only [Bool.and_eq_true, List.any_eq_true]
    exact ⟨hprev, nameParts name, by simp, hmp⟩

/-- Claim C8, witness: the separator-variation theorem applied to the
name `"Anna Svensson"` with a hyphen separator. -/
theorem C8_witness :
    piSearchL [nameParts "Anna Svensson"]
      ("by ".toList ++ interleave (nameParts "Anna Svensson") [['-']] ++ " et".toList) =
      true :=
  C8_separator_variation.1 "Anna Svensson" [['-']] "by ".toList " et".toList
    (by decide) (by decide) (by decide) (by decide) (by decide)

/-- Claim C3: for any controlled name list (names non-blank, as the
source guarantees after stripping and filtering) and any funding text,
the two-stage attribution equals running `find_pi_names_full`
unconditionally on the row, and a successful full-name search implies a
successful last-name pre-filter, so stage 1 never produces a false
negative. -/
theorem C3_two_stage_equivalence (names : List String) (text : String)
    (hne : ∀ n ∈ names, nameParts n ≠ []) :
    pi_names_in_funding names text = find_pi_names_full names text ∧
    pi_in_funding names text = decide (0 < (find_pi_names_full names text).length) ∧
    (piSearch names text = true → lastnameSearch names text = true) := by
  have hmain : pi_names_in_funding names text = find_pi_names_full names text := by
    by_cases hg : lastnameSearch names text
    · simp [pi_names_in_funding, hg]
    · have hgf : lastnameSearch names text = false := by simpa using hg
      have hfa : findallGo (names.map nameParts) text.toList 0 (text.toList.length + 1) =
          [] := findallGo_nil hne hgf _ 0
      have hfind : find_pi_names_full names text = "" := by
        rw [find_pi_names_full]
        by_cases ht : pyStrip text = ""
        · rw [if_pos ht]
        · rw [if_neg ht, piFindall, hfa]
          rfl
      rw [hfind]
      simp [pi_names_in_funding, hgf]
  refine ⟨hmain, ?_, ?_⟩
  · rw [pi_in_funding, hmain]
  · intro hps
    simp only [piSearch, piSearchL, List.any_eq_true, List.mem_range] at hps
    obtain ⟨i, _, hconj⟩ := hps
    rw [Bool.and_eq_true] at hconj
    obtain ⟨ps, hmem, hm⟩ := List.any_eq_true.mp hconj.2
    obtain ⟨n, hn, hpn⟩ := List.mem_map.mp hmem
    subst hpn
    exact matchParts_lastname hn (hne n hn) hconj.1 hm

/-- Claim C3, witness: the equivalence applied to a concrete name list
and funding text. -/
theorem C3_witness :
    (∀ n ∈ (["Anna Svensson"] : List String), nameParts n ≠ []) ∧
    pi_names_in_funding ["Anna Svensson"] "grant to Anna Svensson" =
      find_pi_names_full ["Anna Svensson"] "grant to Anna Svensson" :=
  ⟨by decide,
    (C3_two_stage_equivalence ["Anna Svensson"] "grant to Anna Svensson" (by decide)).1⟩

/-- The concrete structure refuting claim C7's tie-break: two
equally-long candidate record lists, the first without a unique
identifier, the second with one. -/
def c7data : PyVal :=
  PyVal.list
    [PyVal.dict [("REC", PyVal.list [PyVal.dict [("x", PyVal.int 1)]])],
     PyVal.dict [("REC", PyVal.list [PyVal.dict [("UID", PyVal.str "u")]])]]

/-- Claim C7, counterexample: on a tie between two equally-long
candidate lists, `extract_records_any` returns the first one found by
the walk even though only the second carries a `UID`; the claim says
the tie is broken by preferring the UID-bearing list. -/
theorem C7_counterexample :
    extract_records_any c7data = [PyVal.dict [("x", PyVal.int 1)]] ∧
    (extract_records_any c7data).any hasUID = false ∧
    walkCands c7data =
      [[PyVal.dict [("x", PyVal.int 1)]], [PyVal.dict [("UID", PyVal.str "u")]]] := by
  refine ⟨?_, ?_, ?_⟩
  · simp [c7data, extract_records_any, directPath, walkCands, walkItems, walkVals,
      candsAtDict, recOf, alookup, lookupD, isDictB, firstMaxLen, hasUID]
  · simp [c7data, extract_records_any, directPath, walkCands, walkItems, walkVals,
      candsAtDict, recOf, alookup, lookupD, isDictB, firstMaxLen, hasUID]
  · simp [c7data, walkCands, walkItems, walkVals, candsAtDict, recOf, alookup, lookupD,
      isDictB]

/-- Claim C7, amended: when the direct path raises or falls through
(not when it merely returns an empty list — that result is returned
as-is without walking) and the walk finds candidates, the function
takes the first-encountered longest candidate list — a longest element
of the walk, every earlier candidate being strictly shorter — and
returns its UID-bearing entries when any exist, the whole list
otherwise; the result is always a sublist of that longest candidate,
not of a UID-preferred one. -/
theorem C7_discovery_behaviour (data : PyVal) (c : List PyVal) (cs : List (List PyVal))
    (hdp : directPath data = none) (hwc : walkCands data = c :: cs) :
    extract_records_any data =
      (if !((firstMaxLen c cs).filter hasUID).isEmpty then (firstMaxLen c cs).filter hasUID
       else firstMaxLen c cs) ∧
    firstMaxLen c cs ∈ walkCands data ∧
    (∀ x ∈ walkCands data, x.length ≤ (firstMaxLen c cs).length) ∧
    (∃ pre post, walkCands data = pre ++ firstMaxLen c cs :: post ∧
      ∀ y ∈ pre, y.length < (firstMaxLen c cs).length) ∧
    (extract_records_any data).Sublist (firstMaxLen c cs) := by
  obtain ⟨hmem, hbound, pre, post, hdec, hpre⟩ := firstMaxLen_spec cs c
  have hea : extract_records_any data =
      (if !((firstMaxLen c cs).filter hasUID).isEmpty then (firstMaxLen c cs).filter hasUID
       else firstMaxLen c cs) := by
    simp only [extract_records_any, hdp, hwc]
  refine ⟨hea, ?_, ?_, ?_, ?_⟩
  · rw [hwc]; exact hmem
  · intro x hx
    rw [hwc] at hx
    exact hbound x hx
  · exact ⟨pre, post, by rw [hwc]; exact hdec, hpre⟩
  · rw [hea]
    by_cases hu : ((firstMaxLen c cs).filter hasUID).isEmpty
    · simp only [hu, Bool.not_true, Bool.false_eq_true, if_false]
      exact List.Sublist.refl _
    · simp only [Bool.not_eq_true'] at hu
      rw [if_pos (by simp [hu])]
      exact List.filter_sublist _

/-- Claim C7, witness: the amended discovery behaviour applied to the
concrete tie structure. -/
theorem C7_witness :
    firstMaxLen [PyVal.dict [("x", PyVal.int 1)]] [[PyVal.dict [("UID", PyVal.str "u")]]] ∈
      walkCands c7data :=
  (C7_discovery_behaviour c7data [PyVal.dict [("x", PyVal.int 1)]]
    [[PyVal.dict [("UID", PyVal.str "u")]]]
    (by simp [c7data, directPath])
    (by simp [c7data, walkCands, walkItems, walkVals, candsAtDict, recOf, alookup,
      lookupD, isDictB])).2.1
